import Mathlib

/-!
Verification of the genecator NFT generation engine against its
natural-language specification.  The Python modules under `src/modules/`
(`trait_tracker.py`, `nft_generator.py`, `image_processor.py`,
`resource_manager.py`, `constants.py`) are shallowly embedded below:
dictionaries become association lists in insertion order, sets become
boolean membership functions, and the mutable objects become explicit
state records threaded through the operations.
-/

namespace Genecator

/-! ## Trait tracker (`src/modules/trait_tracker.py`) -/

/-- A candidate's trait map: Python `Dict[str, str]` in insertion order.
Python dict keys are unique; theorems that need this carry a
`(traits.map Prod.fst).Nodup` hypothesis. -/
abbrev Traits := List (String × String)

/-- Lexicographic comparison of code-point sequences, the order Python
uses to compare strings. -/
def charListLt : List Char → List Char → Bool
  | [], [] => false
  | [], _ :: _ => true
  | _ :: _, [] => false
  | a :: as, b :: bs =>
    if a < b then true else if a = b then charListLt as bs else false

/-- Python `a < b` on strings. -/
def strLt (a b : String) : Bool := charListLt a.toList b.toList

/-- Python `a <= b` on `(str, str)` tuples: lexicographic on the pair. -/
def pairLeB (a b : String × String) : Bool :=
  strLt a.1 b.1 || (a.1 == b.1 && (a.2 == b.2 || strLt a.2 b.2))

/-- Ordering used by Python `sorted` on `(str, str)` tuples. -/
def pairLe (a b : String × String) : Prop := pairLeB a b = true

instance : DecidableRel pairLe := fun a b => by
  unfold pairLe; infer_instance

/-- Python `tuple(sorted(combo))`. -/
def sortPairs (l : List (String × String)) : List (String × String) :=
  List.insertionSort pairLe l

/-- `TraitTracker.get_trait_pattern`: all 4-element combinations of the
trait items, each canonicalized by sorting; empty when fewer than 4
items.  `itertools.combinations` enumerates one subsequence per index
subset, which is what `List.sublistsLen 4` produces (enumeration order
differs, but the collection of patterns is the same multiset). -/
def getTraitPattern (traits : Traits) : List (List (String × String)) :=
  if 4 ≤ traits.length then
    (List.sublistsLen 4 traits).map sortPairs
  else []

/-- `TraitTracker.get_bsh_combination`: the (Body, Eyewear, Head) value
triple when all three types are present, else `None`. -/
def getBshCombination (traits : Traits) : Option (String × String × String) :=
  match traits.lookup "Body", traits.lookup "Eyewear", traits.lookup "Head" with
  | some b, some e, some h => some (b, e, h)
  | _, _, _ => none

/-- State of a `TraitTracker`: `trait_patterns` is a `defaultdict(int)`
(modelled by its value semantics, a total function defaulting to 0),
`bsh_combinations` a set (boolean membership), and
`MAX_SIMILAR_COMBINATIONS` the configured bound. -/
structure TrackerState where
  traitPatterns : List (String × String) → ℕ
  bshCombinations : String × String × String → Bool
  maxSimilarCombinations : ℕ

/-- `TraitTracker.__init__`: empty pattern counters and triple set. -/
def initialTracker (m : ℕ) : TrackerState :=
  { traitPatterns := fun _ => 0
    bshCombinations := fun _ => false
    maxSimilarCombinations := m }

/-- `TraitTracker.is_unique_enough`: fail when the BSH triple is already
recorded, otherwise require every pattern counter to be strictly below
`MAX_SIMILAR_COMBINATIONS`.  (In Python a present triple is a non-empty
tuple, hence always truthy.) -/
def isUniqueEnough (st : TrackerState) (traits : Traits) : Bool :=
  (match getBshCombination traits with
   | some t => !(st.bshCombinations t)
   | none => true)
  && (getTraitPattern traits).all
      (fun p => st.traitPatterns p < st.maxSimilarCombinations)

/-- `TraitTracker.update_patterns`: increment each pattern's counter in a
loop, then insert the BSH triple when present. -/
def updatePatterns (st : TrackerState) (traits : Traits) : TrackerState :=
  let counters :=
    (getTraitPattern traits).foldl
      (fun f p => Function.update f p (f p + 1)) st.traitPatterns
  let bsh :=
    match getBshCombination traits with
    | some t => fun x => x = t || st.bshCombinations x
    | none => st.bshCombinations
  { st with traitPatterns := counters, bshCombinations := bsh }

/-- Tracker states reachable in a single-worker run: candidates are
committed via `update_patterns` only after `is_unique_enough` returned
true (the acceptance discipline of `generate_nft`).  The Nodup
hypothesis records that a Python dict has unique keys. -/
inductive ReachableTracker (m : ℕ) : TrackerState → Prop where
  | init : ReachableTracker m (initialTracker m)
  | step (st : TrackerState) (traits : Traits) :
      ReachableTracker m st →
      (traits.map Prod.fst).Nodup →
      isUniqueEnough st traits = true →
      ReachableTracker m (updatePatterns st traits)

/-- A whole run of accepted candidates at the tracker level: each is
checked against the state left by its predecessors and then committed. -/
def acceptedRun (st : TrackerState) : List Traits → Bool
  | [] => true
  | c :: rest => isUniqueEnough st c && acceptedRun (updatePatterns st c) rest

/-- Two sublists of a duplicate-free list that are permutations of one
another are equal: a subsequence of a Nodup list is determined by its
element set. -/
theorem sublist_perm_eq_of_nodup {α : Type} {l s t : List α}
    (hl : l.Nodup) (hs : s.Sublist l) (ht : t.Sublist l) (hp : s.Perm t) :
    s = t := by
  induction l generalizing s t with
  | nil =>
    have hs' := List.sublist_nil.mp hs
    have ht' := List.sublist_nil.mp ht
    rw [hs', ht']
  | cons x l ih =>
    have hx : x ∉ l := (List.nodup_cons.mp hl).1
    rcases List.sublist_cons_iff.mp hs with hs' | ⟨s', rfl, hs'⟩
    · rcases List.sublist_cons_iff.mp ht with ht' | ⟨t', rfl, ht'⟩
      · exact ih hl.of_cons hs' ht' hp
      · exact absurd (hs'.subset (hp.mem_iff.mpr (List.mem_cons_self x t'))) hx
    · rcases List.sublist_cons_iff.mp ht with ht' | ⟨t', rfl, ht'⟩
      · exact absurd (ht'.subset (hp.symm.mem_iff.mpr (List.mem_cons_self x s'))) hx
      · rw [ih hl.of_cons hs' ht' hp.cons_inv]

/-- A candidate with duplicate-free keys yields a duplicate-free pattern
list: distinct 4-combinations stay distinct after sorting. -/
theorem getTraitPattern_nodup {traits : Traits}
    (h : (traits.map Prod.fst).Nodup) : (getTraitPattern traits).Nodup := by
  have htr : traits.Nodup := List.Nodup.of_map Prod.fst h
  unfold getTraitPattern
  split
  · refine List.Nodup.map_on ?_ (List.nodup_sublistsLen 4 htr)
    intro c₁ h₁ c₂ h₂ heq
    have hs₁ := (List.mem_sublistsLen.mp h₁).1
    have hs₂ := (List.mem_sublistsLen.mp h₂).1
    have hperm : c₁.Perm c₂ := by
      have p₁ := List.perm_insertionSort pairLe c₁
      have p₂ := List.perm_insertionSort pairLe c₂
      unfold sortPairs at heq
      exact (p₁.symm.trans (heq ▸ p₂))
    exact sublist_perm_eq_of_nodup htr hs₁ hs₂ hperm
  · exact List.nodup_nil

/-- In a duplicate-free list every member occurs exactly once. -/
theorem count_eq_one_of_nodup_mem {α : Type} [BEq α] [LawfulBEq α]
    {l : List α} {a : α} (h : l.Nodup) (ha : a ∈ l) : l.count a = 1 := by
  induction l with
  | nil => cases ha
  | cons x l ih =>
    rcases List.mem_cons.mp ha with rfl | ha'
    · have hx : a ∉ l := (List.nodup_cons.mp h).1
      rw [List.count_cons, List.count_eq_zero.mpr hx]
      simp
    · have hne : x ≠ a := by
        rintro rfl; exact (List.nodup_cons.mp h).1 ha'
      rw [List.count_cons, ih (List.nodup_cons.mp h).2 ha']
      simp [hne]

/-- Folding counter increments over a list adds the multiplicity of each
key (the effect of the `for pattern in patterns: +=1` loop). -/
theorem foldl_update_count (l : List (List (String × String)))
    (f : List (String × String) → ℕ) (q : List (String × String)) :
    (l.foldl (fun g x => Function.update g x (g x + 1)) f) q
      = f q + l.count q := by
  induction l generalizing f with
  | nil => simp
  | cons a l ih =>
    simp only [List.foldl_cons, ih, List.count_cons]
    by_cases hqa : a = q
    · subst hqa; simp [Function.update]; omega
    · simp [Function.update, hqa, Ne.symm hqa]

/-- `update_patterns` adds the pattern multiplicity to each counter. -/
theorem updatePatterns_traitPatterns (st : TrackerState) (traits : Traits)
    (p : List (String × String)) :
    (updatePatterns st traits).traitPatterns p
      = st.traitPatterns p + (getTraitPattern traits).count p := by
  unfold updatePatterns
  exact foldl_update_count _ _ _

/-- Unfolding the pattern half of a successful `is_unique_enough`. -/
theorem isUniqueEnough_patterns {st : TrackerState} {traits : Traits}
    (h : isUniqueEnough st traits = true) :
    ∀ p ∈ getTraitPattern traits,
      st.traitPatterns p < st.maxSimilarCombinations := by
  unfold isUniqueEnough at h
  rw [Bool.and_eq_true] at h
  intro p hp
  exact of_decide_eq_true (List.all_eq_true.mp h.2 p hp)

/-- Unfolding the BSH half of a successful `is_unique_enough`. -/
theorem isUniqueEnough_bsh {st : TrackerState} {traits : Traits}
    {t : String × String × String}
    (h : isUniqueEnough st traits = true)
    (ht : getBshCombination traits = some t) :
    st.bshCombinations t = false := by
  unfold isUniqueEnough at h
  rw [Bool.and_eq_true] at h
  have := h.1
  rw [ht] at this
  simpa using this

/-- C1: in a single-worker run where each candidate is committed only
after `is_unique_enough` approved it, every 4-trait pattern counter stays
at most `max_similar_combinations`; moreover a commit increments each of
the candidate's own pattern counters by exactly 1. -/
theorem trait_pattern_counter_le_max :
    (∀ (m : ℕ) (st : TrackerState), ReachableTracker m st →
      ∀ p, st.traitPatterns p ≤ m)
    ∧ (∀ (st : TrackerState) (traits : Traits),
        (traits.map Prod.fst).Nodup →
        ∀ p ∈ getTraitPattern traits,
          (updatePatterns st traits).traitPatterns p
            = st.traitPatterns p + 1) := by
  have hinc : ∀ (st : TrackerState) (traits : Traits),
      (traits.map Prod.fst).Nodup →
      ∀ p ∈ getTraitPattern traits,
        (updatePatterns st traits).traitPatterns p
          = st.traitPatterns p + 1 := by
    intro st traits hnd p hp
    rw [updatePatterns_traitPatterns]
    rw [count_eq_one_of_nodup_mem (getTraitPattern_nodup hnd) hp]
  have hmax : ∀ (m : ℕ) (st : TrackerState), ReachableTracker m st →
      st.maxSimilarCombinations = m := by
    intro m st h
    induction h with
    | init => rfl
    | step st traits _ _ _ ih => exact ih
  constructor
  · intro m st h
    induction h with
    | init => intro p; exact Nat.zero_le m
    | step st traits hreach hnd huniq ih =>
      intro p
      by_cases hp : p ∈ getTraitPattern traits
      · rw [hinc st traits hnd p hp]
        have hlt := isUniqueEnough_patterns huniq p hp
        rw [hmax m st hreach] at hlt
        omega
      · rw [updatePatterns_traitPatterns]
        have hz : (getTraitPattern traits).count p = 0 :=
          List.count_eq_zero.mpr hp
        rw [hz]
        exact ih p
  · exact hinc

/-- One concrete 4-trait candidate used by the witnesses. -/
def demoTraits : Traits :=
  [("Background", "Red"), ("Body", "Ape"), ("Eyewear", "Gold"), ("Head", "Hat")]

/-- The single 4-trait pattern of `demoTraits`. -/
def demoPattern : List (String × String) := sortPairs demoTraits

/-- Witness for C1: committing one approved candidate to a fresh tracker
with bound 1 leaves its pattern counter at 1 ≤ 1, and the commit
incremented it by exactly 1. -/
theorem trait_pattern_counter_le_max_witness :
    ((updatePatterns (initialTracker 1) demoTraits).traitPatterns demoPattern ≤ 1)
    ∧ ((updatePatterns (initialTracker 1) demoTraits).traitPatterns demoPattern
        = (initialTracker 1).traitPatterns demoPattern + 1) :=
  ⟨trait_pattern_counter_le_max.1 1 _
      (ReachableTracker.step _ _ ReachableTracker.init (by decide) (by decide))
      demoPattern,
   trait_pattern_counter_le_max.2 (initialTracker 1) demoTraits (by decide)
      demoPattern (by decide)⟩

/-- Committing a candidate never removes a recorded BSH triple. -/
theorem updatePatterns_bsh_mono {st : TrackerState} {c : Traits}
    {t : String × String × String} (h : st.bshCombinations t = true) :
    (updatePatterns st c).bshCombinations t = true := by
  unfold updatePatterns
  cases hb : getBshCombination c <;> simp [hb, h]

/-- Committing a candidate records its BSH triple. -/
theorem updatePatterns_bsh_self {st : TrackerState} {c : Traits}
    {t : String × String × String} (h : getBshCombination c = some t) :
    (updatePatterns st c).bshCombinations t = true := by
  simp [updatePatterns, h]

/-- Once a BSH triple is recorded, no later accepted candidate carries
it: `is_unique_enough` rejects any candidate whose triple is present. -/
theorem bsh_not_in_future (cs : List Traits) :
    ∀ (st : TrackerState) (t : String × String × String),
      st.bshCombinations t = true → acceptedRun st cs = true →
      ∀ c ∈ cs, getBshCombination c ≠ some t := by
  induction cs with
  | nil => intro st t _ _ c hc; cases hc
  | cons c rest ih =>
    intro st t hst hrun d hd
    unfold acceptedRun at hrun
    rw [Bool.and_eq_true] at hrun
    rcases List.mem_cons.mp hd with rfl | hd'
    · intro hbsh
      have h2 := isUniqueEnough_bsh hrun.1 hbsh
      rw [hst] at h2
      exact Bool.noConfusion h2
    · exact ih (updatePatterns st c) t (updatePatterns_bsh_mono hst) hrun.2 d hd'

/-- Ordered-index version of the triple-uniqueness argument. -/
theorem bsh_unique_aux (cs : List Traits) :
    ∀ st : TrackerState, acceptedRun st cs = true →
    ∀ (i j : ℕ) (hi : i < cs.length) (hj : j < cs.length), i < j →
    ∀ ti tj, getBshCombination (cs.get ⟨i, hi⟩) = some ti →
      getBshCombination (cs.get ⟨j, hj⟩) = some tj → ti ≠ tj := by
  induction cs with
  | nil => intro st _ i j hi; exact absurd hi (by simp)
  | cons c rest ih =>
    intro st hrun i j hi hj hij ti tj hti htj
    unfold acceptedRun at hrun
    rw [Bool.and_eq_true] at hrun
    cases i with
    | zero =>
      have hc : getBshCombination c = some ti := hti
      cases j with
      | zero => exact absurd hij (lt_irrefl 0)
      | succ j' =>
        have hj' : j' < rest.length := by simpa using hj
        intro heq
        refine bsh_not_in_future rest (updatePatterns st c) ti
          (updatePatterns_bsh_self hc) hrun.2 (rest.get ⟨j', hj'⟩)
          (List.get_mem rest j' hj') ?_
        rw [show getBshCombination (rest.get ⟨j', hj'⟩) = some tj from htj, heq]
    | succ i' =>
      cases j with
      | zero => exact absurd hij (by omega)
      | succ j' =>
        exact ih (updatePatterns st c) hrun.2 i' j' (by simpa using hi)
          (by simpa using hj) (by omega) ti tj hti htj

/-- C3: over a whole single-worker run, any two distinct accepted
candidates that both carry a full (Body, Eyewear, Head) triple have
different triples — independent of `max_similar_combinations`. -/
theorem bsh_triple_unique (m : ℕ) (cs : List Traits)
    (hrun : acceptedRun (initialTracker m) cs = true)
    (i j : ℕ) (hi : i < cs.length) (hj : j < cs.length) (hij : i ≠ j)
    (ti tj : String × String × String)
    (hti : getBshCombination (cs.get ⟨i, hi⟩) = some ti)
    (htj : getBshCombination (cs.get ⟨j, hj⟩) = some tj) : ti ≠ tj := by
  rcases Nat.lt_or_ge i j with h | h
  · exact bsh_unique_aux cs _ hrun i j hi hj h ti tj hti htj
  · have hlt : j < i := lt_of_le_of_ne h (Ne.symm hij)
    exact (bsh_unique_aux cs _ hrun j i hj hi hlt tj ti htj hti).symm

/-- Concrete accepted candidates used by the C3 witness. -/
def demoCandA : Traits := [("Body", "A"), ("Eyewear", "B"), ("Head", "C")]

/-- Second concrete candidate, differing in the Head value. -/
def demoCandB : Traits := [("Body", "A"), ("Eyewear", "B"), ("Head", "D")]

/-- Witness for C3: a concrete two-candidate accepted run has distinct
triples. -/
theorem bsh_triple_unique_witness :
    (("A", "B", "C") : String × String × String) ≠ ("A", "B", "D") :=
  bsh_triple_unique 1 [demoCandA, demoCandB] (by decide) 0 1 (by decide)
    (by decide) (by decide) _ _ (by decide) (by decide)

/-- C10: a candidate with fewer than 4 (type, value) pairs has no
4-trait patterns, so `is_unique_enough` degenerates to the BSH triple
check alone, whatever the tracker state and bound. -/
theorem small_candidate_pattern_vacuous (traits : Traits)
    (h : traits.length < 4) :
    getTraitPattern traits = []
    ∧ ∀ st : TrackerState, isUniqueEnough st traits =
        (match getBshCombination traits with
         | some t => !(st.bshCombinations t)
         | none => true) := by
  have hpat : getTraitPattern traits = [] := by
    unfold getTraitPattern
    rw [if_neg (by omega)]
  refine ⟨hpat, fun st => ?_⟩
  unfold isUniqueEnough
  rw [hpat]
  simp

/-- Witness for C10 on a 3-trait candidate and a fresh tracker. -/
theorem small_candidate_pattern_vacuous_witness :
    getTraitPattern demoCandA = []
    ∧ isUniqueEnough (initialTracker 1) demoCandA =
        (match getBshCombination demoCandA with
         | some t => !((initialTracker 1).bshCombinations t)
         | none => true) :=
  ⟨(small_candidate_pattern_vacuous demoCandA (by decide)).1,
   (small_candidate_pattern_vacuous demoCandA (by decide)).2 (initialTracker 1)⟩

/-! ## Rule engine and generation loop (`src/modules/nft_generator.py`) -/

/-- A validated rule (`RuleConfig`): an if-condition
(`if_condition.trait_type`, `if_condition.value`) and a then-condition
(`then_condition.trait_type`, `then_condition.excluded_values`).  The
claims use list-valued conditions, embedded as string lists. -/
structure Rule where
  ifTraitType : String
  ifValue : List String
  thenTraitType : String
  thenExcludedValues : List String
deriving DecidableEq

/-- Python `traits[trait_type] = value` on an (ordered) dict: overwrite
in place when the key exists, else append. -/
def dictInsert (l : Traits) (k v : String) : Traits :=
  if l.any (fun p => p.1 == k) then
    l.map (fun p => if p.1 == k then (k, v) else p)
  else l ++ [(k, v)]

/-- `NFTGenerator.is_valid_trait`: both directions of every rule must
hold.  The Python code walks `_rules_by_then[new_trait_type]` and
`_rules_by_if[new_trait_type]` (the rules filtered by the involved
trait type, in load order) and rejects on the first violation. -/
def isValidTrait (rules : List Rule) (selected : Traits)
    (newTraitType newTraitValue : String) : Bool :=
  ((rules.filter (fun r => r.thenTraitType == newTraitType)).all (fun r =>
    match selected.lookup r.ifTraitType with
    | some conditionValue =>
      if r.ifValue.contains "*" || r.ifValue.contains conditionValue then
        !(r.thenExcludedValues.contains "*"
          || r.thenExcludedValues.contains newTraitValue)
      else true
    | none => true))
  && ((rules.filter (fun r => r.ifTraitType == newTraitType)).all (fun r =>
    if r.ifValue.contains "*" || r.ifValue.contains newTraitValue then
      match selected.lookup r.thenTraitType with
      | some existingValue =>
        !(r.thenExcludedValues.contains "*"
          || r.thenExcludedValues.contains existingValue)
      | none => true
    else true))

/-- One step of one generation attempt: a trait type together with the
outcome of `should_include_trait` and the successive `select_trait`
draws available to it (the list length plays the role of
`MAX_TRAIT_ATTEMPTS`). -/
abbrev AttemptStep := String × Bool × List String

/-- The inner `for _ in range(MAX_TRAIT_ATTEMPTS)` loop: draw values
until one passes `is_valid_trait`, then set it; `none` when the draws
run out (trait-validation failure). -/
def tryTrait (rules : List Rule) (m : Traits) (t : String) :
    List String → Option Traits
  | [] => none
  | v :: rest =>
    if isValidTrait rules m t v then some (dictInsert m t v)
    else tryTrait rules m t rest

/-- One full attempt of `generate_nft`: walk the generation order,
skipping non-included types, aborting when a trait finds no valid
value. -/
def buildAttempt (rules : List Rule) : List AttemptStep → Traits → Option Traits
  | [], m => some m
  | (t, inc, draws) :: rest, m =>
    if inc then
      match tryTrait rules m t draws with
      | some m' => buildAttempt rules rest m'
      | none => none
    else buildAttempt rules rest m

/-- The digest `sha256(json.dumps(traits, sort_keys=True))`, modelled as
the canonical key-sorted serialization itself (the hash is treated as
an injective encoding of that serialization). -/
def nftHash (traits : Traits) : String :=
  String.intercalate "," ((sortPairs traits).map (fun p => p.1 ++ ":" ++ p.2))

/-- Generator state touched by `generate_nft`: `self.generated_hashes`
(set, as boolean membership) and `self.trait_tracker`. -/
structure GenState where
  generatedHashes : String → Bool
  traitTracker : TrackerState

/-- `NFTGenerator.generate_nft`: bounded retry over attempts (the list
length plays the role of `MAX_ATTEMPTS`); an attempt is accepted when it
builds a valid combination that is unique enough and has a fresh digest,
and only then is state mutated.  Returns the Python result
(`none` models the final `raise`) paired with the final state. -/
def generateNft (rules : List Rule) :
    List (List AttemptStep) → GenState → Option (Traits × String) × GenState
  | [], st => (none, st)
  | a :: rest, st =>
    match buildAttempt rules a [] with
    | some traits =>
      if isUniqueEnough st.traitTracker traits then
        if st.generatedHashes (nftHash traits) then generateNft rules rest st
        else
          (some (traits, nftHash traits),
           { generatedHashes := fun x => x == nftHash traits || st.generatedHashes x
             traitTracker := updatePatterns st.traitTracker traits })
      else generateNft rules rest st
    | none => generateNft rules rest st

/-- Whether one attempt would be accepted against a given state. -/
def attemptAccepted (rules : List Rule) (st : GenState)
    (a : List AttemptStep) : Bool :=
  match buildAttempt rules a [] with
  | some traits =>
    isUniqueEnough st.traitTracker traits
      && !(st.generatedHashes (nftHash traits))
  | none => false

/-- Overwriting head with a matching key. -/
theorem map_overwrite_cons_self (l : Traits) (a b v : String) :
    ((a, b) :: l).map (fun p => if p.1 == a then (a, v) else p)
      = (a, v) :: l.map (fun p => if p.1 == a then (a, v) else p) := by
  rw [List.map_cons]
  dsimp only
  rw [beq_self_eq_true]
  rfl

/-- Overwriting head with a non-matching key. -/
theorem map_overwrite_cons_ne (l : Traits) (a b v k : String)
    (h : (a == k) = false) :
    ((a, b) :: l).map (fun p => if p.1 == k then (k, v) else p)
      = (a, b) :: l.map (fun p => if p.1 == k then (k, v) else p) := by
  rw [List.map_cons]
  dsimp only
  rw [h]
  rfl

/-- Looking up a different key is unaffected by an in-place overwrite. -/
theorem lookup_map_overwrite_ne (l : Traits) (k v k' : String) (h : k' ≠ k) :
    (l.map (fun p => if p.1 == k then (k, v) else p)).lookup k' = l.lookup k' := by
  induction l with
  | nil => rfl
  | cons x l ih =>
    obtain ⟨a, b⟩ := x
    by_cases hx : a = k
    · subst hx
      rw [map_overwrite_cons_self l a b v]
      have hk : (k' == a) = false := beq_eq_false_iff_ne.mpr h
      simp only [List.lookup, hk]
      exact ih
    · rw [map_overwrite_cons_ne l a b v k (beq_eq_false_iff_ne.mpr hx)]
      cases hk'a : (k' == a)
      · simp only [List.lookup, hk'a]
        exact ih
      · simp only [List.lookup, hk'a]

/-- Looking up the overwritten key finds the new value when the key was
present. -/
theorem lookup_map_overwrite_eq (l : Traits) (k v : String)
    (h : l.any (fun p => p.1 == k) = true) :
    (l.map (fun p => if p.1 == k then (k, v) else p)).lookup k = some v := by
  induction l with
  | nil => cases h
  | cons x l ih =>
    obtain ⟨a, b⟩ := x
    by_cases hx : a = k
    · subst hx
      rw [map_overwrite_cons_self l a b v]
      simp only [List.lookup, beq_self_eq_true]
    · have hxk : (a == k) = false := beq_eq_false_iff_ne.mpr hx
      have hka : (k == a) = false := beq_eq_false_iff_ne.mpr (Ne.symm hx)
      rw [map_overwrite_cons_ne l a b v k hxk]
      simp only [List.any_cons, Bool.or_eq_true] at h
      rcases h with h | h
      · rw [hxk] at h; cases h
      · simp only [List.lookup, hka]
        exact ih h

/-- Appending a fresh key makes it found at its value. -/
theorem lookup_append_self (l : Traits) (k v : String) :
    (l ++ [(k, v)]).lookup k = some v ∨ (l.lookup k).isSome = true := by
  induction l with
  | nil => left; simp [List.lookup]
  | cons x l ih =>
    obtain ⟨a, b⟩ := x
    by_cases hka : k = a
    · right; simp [List.lookup, hka]
    · have h : (k == a) = false := beq_eq_false_iff_ne.mpr hka
      rcases ih with h1 | h1
      · left; simp [List.lookup, h, h1]
      · right; simp [List.lookup, h, h1]

/-- Appending a pair leaves other keys' lookups unchanged. -/
theorem lookup_append_ne (l : Traits) (k v k' : String) (h : k' ≠ k) :
    (l ++ [(k, v)]).lookup k' = l.lookup k' := by
  induction l with
  | nil => simp [List.lookup, beq_eq_false_iff_ne.mpr h]
  | cons x l ih =>
    obtain ⟨a, b⟩ := x
    by_cases hka : k' = a
    · simp [List.lookup, hka]
    · simp [List.lookup, beq_eq_false_iff_ne.mpr hka, ih]

/-- Absent key: lookup fails exactly when `any` fails. -/
theorem lookup_eq_none_of_not_any (l : Traits) (k : String)
    (h : l.any (fun p => p.1 == k) = false) : l.lookup k = none := by
  induction l with
  | nil => rfl
  | cons x l ih =>
    obtain ⟨a, b⟩ := x
    simp only [List.any_cons, Bool.or_eq_false_iff] at h
    have : (k == a) = false := by
      rcases beq_eq_false_iff_ne.mp h.1 with h'
      exact beq_eq_false_iff_ne.mpr (Ne.symm h')
    simp [List.lookup, this, ih h.2]

/-- Dict insertion updates exactly the inserted key. -/
theorem lookup_dictInsert (l : Traits) (k v k' : String) :
    (dictInsert l k v).lookup k' = if k' = k then some v else l.lookup k' := by
  unfold dictInsert
  by_cases hany : l.any (fun p => p.1 == k) = true
  · rw [if_pos hany]
    by_cases hk : k' = k
    · subst hk; rw [if_pos rfl]; exact lookup_map_overwrite_eq l k' v hany
    · rw [if_neg hk]; exact lookup_map_overwrite_ne l k v k' hk
  · rw [if_neg hany]
    have hany' : l.any (fun p => p.1 == k) = false := by
      cases h : l.any (fun p => p.1 == k)
      · rfl
      · exact absurd h hany
    by_cases hk : k' = k
    · subst hk
      rw [if_pos rfl]
      rcases lookup_append_self l k' v with h | h
      · exact h
      · rw [lookup_eq_none_of_not_any l k' hany'] at h
        cases h
    · rw [if_neg hk]; exact lookup_append_ne l k v k' hk

/-- The concrete rule of C4: `if Background=Red then Eyewear
excluded_values=[Gold]`. -/
def bgRedNoGoldRule : Rule :=
  { ifTraitType := "Background", ifValue := ["Red"]
    thenTraitType := "Eyewear", thenExcludedValues := ["Gold"] }

/-- One validated insertion cannot create the forbidden
Background=Red / Eyewear=Gold combination, whichever of the two types
arrives last: `is_valid_trait` checks the rule in both directions. -/
theorem dictInsert_no_violation (rules : List Rule)
    (hr : bgRedNoGoldRule ∈ rules) (m : Traits) (t v : String)
    (hm : ¬(m.lookup "Background" = some "Red"
            ∧ m.lookup "Eyewear" = some "Gold"))
    (hv : isValidTrait rules m t v = true) :
    ¬((dictInsert m t v).lookup "Background" = some "Red"
      ∧ (dictInsert m t v).lookup "Eyewear" = some "Gold") := by
  rintro ⟨hb, he⟩
  rw [lookup_dictInsert] at hb he
  unfold isValidTrait at hv
  rw [Bool.and_eq_true] at hv
  by_cases hbt : "Background" = t
  · subst hbt
    rw [if_pos rfl] at hb
    rw [if_neg (by decide)] at he
    have hveq : v = "Red" := Option.some.inj hb
    subst hveq
    have hall := List.all_eq_true.mp hv.2 bgRedNoGoldRule
      (List.mem_filter.mpr ⟨hr, by decide⟩)
    simp [bgRedNoGoldRule, he] at hall
  · by_cases het : "Eyewear" = t
    · subst het
      rw [if_neg (by decide)] at hb
      rw [if_pos rfl] at he
      have hveq : v = "Gold" := Option.some.inj he
      subst hveq
      have hall := List.all_eq_true.mp hv.1 bgRedNoGoldRule
        (List.mem_filter.mpr ⟨hr, by decide⟩)
      simp [bgRedNoGoldRule, hb] at hall
    · rw [if_neg hbt] at hb
      rw [if_neg het] at he
      exact hm ⟨hb, he⟩

/-- A successful `tryTrait` is a validated insertion. -/
theorem tryTrait_some (rules : List Rule) (m : Traits) (t : String) :
    ∀ (draws : List String) (m' : Traits),
      tryTrait rules m t draws = some m' →
      ∃ v, isValidTrait rules m t v = true ∧ m' = dictInsert m t v := by
  intro draws
  induction draws with
  | nil => intro m' h; cases h
  | cons v rest ih =>
    intro m' h
    unfold tryTrait at h
    by_cases hval : isValidTrait rules m t v = true
    · rw [if_pos hval] at h
      exact ⟨v, hval, (Option.some.inj h).symm⟩
    · rw [if_neg hval] at h
      exact ih m' h

/-- An attempt built from a rule-respecting partial candidate never
acquires the forbidden combination. -/
theorem buildAttempt_no_violation (rules : List Rule)
    (hr : bgRedNoGoldRule ∈ rules) :
    ∀ (steps : List AttemptStep) (m m' : Traits),
      buildAttempt rules steps m = some m' →
      ¬(m.lookup "Background" = some "Red"
        ∧ m.lookup "Eyewear" = some "Gold") →
      ¬(m'.lookup "Background" = some "Red"
        ∧ m'.lookup "Eyewear" = some "Gold") := by
  intro steps
  induction steps with
  | nil =>
    intro m m' h hm
    rw [show m' = m from (Option.some.inj h).symm]
    exact hm
  | cons s rest ih =>
    obtain ⟨t, inc, draws⟩ := s
    intro m m' h hm
    unfold buildAttempt at h
    cases inc with
    | false =>
      rw [if_neg (by simp)] at h
      exact ih m m' h hm
    | true =>
      rw [if_pos rfl] at h
      cases htry : tryTrait rules m t draws with
      | none => rw [htry] at h; cases h
      | some m1 =>
        rw [htry] at h
        obtain ⟨v, hval, rfl⟩ := tryTrait_some rules m t draws m1 htry
        exact ih _ m' h (dictInsert_no_violation rules hr m t v hm hval)

/-- An accepted result of `generate_nft` was built by some attempt. -/
theorem generateNft_accepted_build (rules : List Rule) :
    ∀ (attempts : List (List AttemptStep)) (st : GenState)
      (traits : Traits) (hsh : String),
      (generateNft rules attempts st).1 = some (traits, hsh) →
      ∃ a, a ∈ attempts ∧ buildAttempt rules a [] = some traits := by
  intro attempts
  induction attempts with
  | nil => intro st traits hsh h; cases h
  | cons a rest ih =>
    intro st traits hsh h
    unfold generateNft at h
    split at h
    next tr hb =>
      by_cases huniq : isUniqueEnough st.traitTracker tr = true
      · rw [if_pos huniq] at h
        by_cases hseen : st.generatedHashes (nftHash tr) = true
        · rw [if_pos hseen] at h
          obtain ⟨a', ha', hb'⟩ := ih st traits hsh h
          exact ⟨a', List.mem_cons_of_mem a ha', hb'⟩
        · rw [if_neg hseen] at h
          have : tr = traits := congrArg Prod.fst (Option.some.inj h)
          exact ⟨a, List.mem_cons_self a rest, this ▸ hb⟩
      · rw [if_neg huniq] at h
        obtain ⟨a', ha', hb'⟩ := ih st traits hsh h
        exact ⟨a', List.mem_cons_of_mem a ha', hb'⟩
    next hb =>
      obtain ⟨a', ha', hb'⟩ := ih st traits hsh h
      exact ⟨a', List.mem_cons_of_mem a ha', hb'⟩

/-- C4: with the rule `if Background=Red then Eyewear
excluded_values=[Gold]` loaded, no candidate accepted by `generate_nft`
maps Background to Red and Eyewear to Gold, whatever the draw order. -/
theorem rule_excludes_pair (rules : List Rule)
    (hr : bgRedNoGoldRule ∈ rules)
    (attempts : List (List AttemptStep)) (st : GenState)
    (traits : Traits) (hsh : String)
    (hacc : (generateNft rules attempts st).1 = some (traits, hsh)) :
    ¬(traits.lookup "Background" = some "Red"
      ∧ traits.lookup "Eyewear" = some "Gold") := by
  obtain ⟨a, _, hb⟩ := generateNft_accepted_build rules attempts st traits hsh hacc
  exact buildAttempt_no_violation rules hr a [] traits hb (by simp [List.lookup])

/-- Fresh generator state (empty digest set, fresh tracker). -/
def initialGenState : GenState :=
  { generatedHashes := fun _ => false, traitTracker := initialTracker 1 }

/-- Witness for C4: a concrete run accepting Background=Red satisfies
the forbidden-pair exclusion. -/
theorem rule_excludes_pair_witness :
    (generateNft [bgRedNoGoldRule] [[("Background", true, ["Red"])]]
        initialGenState).1
      = some ([("Background", "Red")], "Background:Red")
    ∧ ¬((([("Background", "Red")] : Traits).lookup "Background" = some "Red")
        ∧ ([("Background", "Red")] : Traits).lookup "Eyewear" = some "Gold") :=
  ⟨by decide,
   rule_excludes_pair [bgRedNoGoldRule] (by decide)
     [[("Background", true, ["Red"])]] initialGenState
     [("Background", "Red")] "Background:Red" (by decide)⟩

/-- C8: `generate_nft` fails (raises) exactly when none of its attempts
produces an accepted candidate, and on failure the digest set, the
pattern counters and the triple set are untouched: state mutates only on
acceptance. -/
theorem generate_exhaustion_atomic (rules : List Rule) :
    ∀ (attempts : List (List AttemptStep)) (st : GenState),
      ((generateNft rules attempts st).1 = none ↔
        attempts.all (fun a => !(attemptAccepted rules st a)) = true)
      ∧ ((generateNft rules attempts st).1 = none →
          (generateNft rules attempts st).2 = st) := by
  intro attempts
  induction attempts with
  | nil =>
    intro st
    exact ⟨by simp [generateNft], fun _ => rfl⟩
  | cons a rest ih =>
    intro st
    cases hb : buildAttempt rules a [] with
    | none =>
      have hg : generateNft rules (a :: rest) st = generateNft rules rest st := by
        conv_lhs => unfold generateNft
        rw [hb]
      have hacc : attemptAccepted rules st a = false := by
        unfold attemptAccepted
        rw [hb]
      refine ⟨?_, ?_⟩
      · rw [hg]
        simp only [List.all_cons, hacc, Bool.not_false, Bool.true_and]
        exact (ih st).1
      · rw [hg]
        exact (ih st).2
    | some tr =>
      by_cases huniq : isUniqueEnough st.traitTracker tr = true
      · by_cases hseen : st.generatedHashes (nftHash tr) = true
        · have hg : generateNft rules (a :: rest) st = generateNft rules rest st := by
            conv_lhs => unfold generateNft
            rw [hb]
            dsimp only
            rw [if_pos huniq, if_pos hseen]
          have hacc : attemptAccepted rules st a = false := by
            unfold attemptAccepted
            rw [hb]
            simp [huniq, hseen]
          refine ⟨?_, ?_⟩
          · rw [hg]
            simp only [List.all_cons, hacc, Bool.not_false, Bool.true_and]
            exact (ih st).1
          · rw [hg]
            exact (ih st).2
        · have hg : generateNft rules (a :: rest) st
              = (some (tr, nftHash tr),
                 { generatedHashes := fun x => x == nftHash tr || st.generatedHashes x
                   traitTracker := updatePatterns st.traitTracker tr }) := by
            conv_lhs => unfold generateNft
            rw [hb]
            dsimp only
            rw [if_pos huniq, if_neg hseen]
          have hacc : attemptAccepted rules st a = true := by
            unfold attemptAccepted
            rw [hb]
            simp [huniq, hseen]
          refine ⟨?_, ?_⟩
          · constructor
            · intro hnone
              rw [hg] at hnone
              exact absurd hnone (by simp)
            · intro hall
              rw [List.all_cons, hacc] at hall
              simp at hall
          · intro hnone
            rw [hg] at hnone
            simp at hnone
      · have hg : generateNft rules (a :: rest) st = generateNft rules rest st := by
          conv_lhs => unfold generateNft
          rw [hb]
          dsimp only
          rw [if_neg huniq]
        have hacc : attemptAccepted rules st a = false := by
          unfold attemptAccepted
          rw [hb]
          simp [huniq]
        refine ⟨?_, ?_⟩
        · rw [hg]
          simp only [List.all_cons, hacc, Bool.not_false, Bool.true_and]
          exact (ih st).1
        · rw [hg]
          exact (ih st).2

/-- Concrete exhausting attempt list (inner draws run out) for the C8
witness. -/
def demoAttempts : List (List AttemptStep) := [[("Background", true, [])]]

/-- Witness for C8 on a run whose single attempt exhausts its draws:
the call fails and the state is returned unchanged. -/
theorem generate_exhaustion_atomic_witness :
    ((generateNft [bgRedNoGoldRule] demoAttempts initialGenState).1 = none ↔
      demoAttempts.all
        (fun a => !(attemptAccepted [bgRedNoGoldRule] initialGenState a)) = true)
    ∧ (generateNft [bgRedNoGoldRule] demoAttempts initialGenState).2
        = initialGenState :=
  ⟨(generate_exhaustion_atomic [bgRedNoGoldRule] demoAttempts initialGenState).1,
   (generate_exhaustion_atomic [bgRedNoGoldRule] demoAttempts initialGenState).2
     (by decide)⟩

/-! ## Weighted sampler (`NFTGenerator.should_include_trait`) -/

/-- `NFTGenerator.should_include_trait`: the configured inclusion weight
is `self.traits[trait_type].get("rarity", 1)` (outer `none` = key
absent), coerced to 1 when `None` (inner `none`); the draw
`random.random()` is the real `r`, and the code returns
`random.random() * 100 < weight * 20`. -/
def shouldIncludeTrait (rarity : Option (Option ℚ)) (r : ℚ) : Bool :=
  let weight : ℚ :=
    match rarity with
    | none => 1
    | some none => 1
    | some (some w) => w
  decide (r * 100 < weight * 20)

/-- Modelled from the spec: "w is that type's configured inclusion
weight, or 1 when the weight is absent or None". -/
def specEffectiveWeight (rarity : Option (Option ℚ)) : ℚ :=
  match rarity with
  | some (some w) => w
  | _ => 1

/-- C9: `should_include_trait` returns true iff `100·r < 20·w`; a weight
of 5 accepts every draw in `[0,1)`, and an absent weight accepts exactly
when `100·r < 20`. -/
theorem should_include_iff (rarity : Option (Option ℚ)) (r : ℚ)
    (h0 : 0 ≤ r) (h1 : r < 1) :
    (shouldIncludeTrait rarity r = true ↔ 100 * r < 20 * specEffectiveWeight rarity)
    ∧ shouldIncludeTrait (some (some 5)) r = true
    ∧ (shouldIncludeTrait none r = true ↔ 100 * r < 20) := by
  refine ⟨?_, ?_, ?_⟩
  · unfold shouldIncludeTrait specEffectiveWeight
    match rarity with
    | none => simp [decide_eq_true_iff]; constructor <;> intro h <;> linarith
    | some none => simp [decide_eq_true_iff]; constructor <;> intro h <;> linarith
    | some (some w) => simp [decide_eq_true_iff]; constructor <;> intro h <;> linarith
  · unfold shouldIncludeTrait
    simp [decide_eq_true_iff]
    linarith
  · unfold shouldIncludeTrait
    simp [decide_eq_true_iff]
    constructor <;> intro h <;> linarith

/-- Witness for C9 at the draw r = 1/2. -/
theorem should_include_iff_witness :
    (0 : ℚ) ≤ 1 / 2 ∧ (1 / 2 : ℚ) < 1
    ∧ shouldIncludeTrait (some (some 5)) (1 / 2) = true
    ∧ (shouldIncludeTrait none (1 / 2) = true ↔ (100 : ℚ) * (1 / 2) < 20) :=
  ⟨by norm_num, by norm_num,
   (should_include_iff none (1 / 2) (by norm_num) (by norm_num)).2.1,
   (should_include_iff none (1 / 2) (by norm_num) (by norm_num)).2.2⟩

/-! ## Circuit breaker (`src/modules/resource_manager.py`) -/

/-- `CircuitBreakerState`. -/
inductive CBState where
  | closed
  | opened
  | halfOpen
deriving DecidableEq

/-- `CircuitBreaker` fields touched by `record_success`/`record_failure`
(`last_failure_time` is written by `record_failure` but only read by the
cooldown check in `can_execute`, which the claim's traces never take). -/
structure Breaker where
  failureThreshold : ℕ
  state : CBState
  failureCount : ℕ
  successCount : ℕ
deriving DecidableEq

/-- `CircuitBreaker.__init__`: Closed with zero counters. -/
def initBreaker (n : ℕ) : Breaker :=
  { failureThreshold := n, state := .closed, failureCount := 0, successCount := 0 }

/-- `CircuitBreaker.record_success`. -/
def recordSuccess (b : Breaker) : Breaker :=
  let b := { b with successCount := b.successCount + 1 }
  match b.state with
  | .halfOpen =>
    if 2 ≤ b.successCount then
      { b with state := .closed, failureCount := 0, successCount := 0 }
    else b
  | _ => b

/-- `CircuitBreaker.record_failure`. -/
def recordFailure (b : Breaker) : Breaker :=
  let b := { b with failureCount := b.failureCount + 1 }
  match b.state with
  | .halfOpen => { b with state := .opened, failureCount := b.failureThreshold }
  | _ =>
    if b.failureThreshold ≤ b.failureCount then { b with state := .opened }
    else b

/-- An interleaving event: one `record_success` or `record_failure`
call. -/
inductive CBEvent where
  | success
  | failure
deriving DecidableEq

/-- Apply one recorded event. -/
def cbStep (b : Breaker) (e : CBEvent) : Breaker :=
  match e with
  | .success => recordSuccess b
  | .failure => recordFailure b

/-- Run an interleaving of `record_success`/`record_failure` calls. -/
def runBreaker (b : Breaker) (tr : List CBEvent) : Breaker :=
  tr.foldl cbStep b

/-- Number of failure events in a trace. -/
def countFailures (tr : List CBEvent) : ℕ :=
  (tr.filter (fun e => e == .failure)).length

/-- Length of the longest run of uninterrupted failures in a trace. -/
def maxConsecutiveFailures (tr : List CBEvent) : ℕ :=
  (tr.foldl
    (fun (p : ℕ × ℕ) e =>
      match e with
      | .failure => (p.1 + 1, max p.2 (p.1 + 1))
      | .success => (0, p.2))
    (0, 0)).2

/-- Counterexample to C7: with threshold 3, the trace
failure, success, failure, success, failure has no run of 3
uninterrupted failures, yet it drives the breaker from Closed to Open —
`record_success` while Closed never resets `failure_count`. -/
theorem breaker_nonconsecutive_opens :
    maxConsecutiveFailures
        [CBEvent.failure, .success, .failure, .success, .failure] < 3
    ∧ (runBreaker (initBreaker 3)
        [CBEvent.failure, .success, .failure, .success, .failure]).state
        = .opened := by
  decide

/-- C7 (amended): from the initial Closed state the breaker reaches Open
exactly when the cumulative number of recorded failures reaches the
threshold, regardless of interleaved successes; with fewer than N
recorded failures in total it stays Closed, its failure counter equal to
the number of failures recorded. -/
theorem breaker_closed_under_threshold (n : ℕ) (tr : List CBEvent)
    (h : countFailures tr < n) :
    (runBreaker (initBreaker n) tr).state = .closed
    ∧ (runBreaker (initBreaker n) tr).failureCount = countFailures tr := by
  suffices haux : ∀ (tr : List CBEvent) (b : Breaker), b.state = .closed →
      b.failureCount + countFailures tr < b.failureThreshold →
      (runBreaker b tr).state = .closed
      ∧ (runBreaker b tr).failureCount = b.failureCount + countFailures tr by
    have := haux tr (initBreaker n) rfl (by simpa [initBreaker] using h)
    simpa [initBreaker] using this
  intro tr
  induction tr with
  | nil =>
    intro b hb _
    exact ⟨hb, by simp [runBreaker, countFailures]⟩
  | cons e rest ih =>
    intro b hb hcnt
    cases e with
    | success =>
      have hstep : cbStep b .success
          = { b with successCount := b.successCount + 1 } := by
        unfold cbStep recordSuccess
        rw [hb]
      have hrun : runBreaker b (CBEvent.success :: rest)
          = runBreaker { b with successCount := b.successCount + 1 } rest := by
        unfold runBreaker
        rw [List.foldl_cons, hstep]
      have hcnt' : countFailures (CBEvent.success :: rest) = countFailures rest := by
        simp [countFailures]
      rw [hrun, hcnt']
      exact ih { b with successCount := b.successCount + 1 } hb
        (by simpa [hcnt'] using hcnt)
    | failure =>
      have hcf : countFailures (CBEvent.failure :: rest)
          = countFailures rest + 1 := by
        simp [countFailures]
      have hlt : b.failureCount + 1 < b.failureThreshold := by
        rw [hcf] at hcnt
        omega
      have hstep : cbStep b .failure
          = { b with failureCount := b.failureCount + 1 } := by
        unfold cbStep recordFailure
        dsimp only
        rw [hb]
        dsimp only
        rw [if_neg (by omega)]
      have hrun : runBreaker b (CBEvent.failure :: rest)
          = runBreaker { b with failureCount := b.failureCount + 1 } rest := by
        unfold runBreaker
        rw [List.foldl_cons, hstep]
      rw [hrun, hcf]
      obtain ⟨h1, h2⟩ := ih { b with failureCount := b.failureCount + 1 } hb
        (by dsimp only; omega)
      refine ⟨h1, ?_⟩
      rw [h2]
      dsimp only
      omega

/-- Witness for the amended C7 on a short sub-threshold trace. -/
theorem breaker_closed_under_threshold_witness :
    countFailures [CBEvent.failure, .success, .failure] < 5
    ∧ (runBreaker (initBreaker 5)
        [CBEvent.failure, .success, .failure]).state = .closed
    ∧ (runBreaker (initBreaker 5)
        [CBEvent.failure, .success, .failure]).failureCount
        = countFailures [CBEvent.failure, .success, .failure] :=
  ⟨by decide,
   (breaker_closed_under_threshold 5
     [CBEvent.failure, .success, .failure] (by decide)).1,
   (breaker_closed_under_threshold 5
     [CBEvent.failure, .success, .failure] (by decide)).2⟩

/-! ## Resume state round-trip (`NFTGenerator._resume_save_state` /
`_resume_load_existing`) -/

/-- `_resume_save_state` serializes a pattern key:
`"||".join([f"{a}:{b}" for (a, b) in pattern])`. -/
def serializePatternKey (p : List (String × String)) : String :=
  String.intercalate "||" (p.map (fun q => q.1 ++ ":" ++ q.2))

/-- Python `k.split("||")` at the code-point level: split on each
left-to-right occurrence of the two-character separator. -/
def splitOnBars : List Char → List Char → List (List Char)
  | [], acc => [acc.reverse]
  | '|' :: '|' :: cs, acc => acc.reverse :: splitOnBars cs []
  | c :: cs, acc => splitOnBars cs (c :: acc)

/-- `_resume_load_existing` deserializes a pattern key with
`tuple(map(tuple, k.split("||")))`: Python `tuple` applied to the string
`"Type:Value"` yields the tuple of its single-character strings.  Both
the loaded key and the original key are Python tuples of tuples of
strings, represented here as `List (List String)`. -/
def deserializePatternKey (s : String) : List (List String) :=
  (splitOnBars s.toList []).map (fun part => part.map String.singleton)

/-- The original pattern key as a Python tuple of tuples of strings:
each element is the (type, value) 2-tuple. -/
def patternKeyRepr (p : List (String × String)) : List (List String) :=
  p.map (fun q => [q.1, q.2])

/-- C2 evidence: the tracker pattern counters do not survive the
save/load round-trip — deserializing the serialized key of the
`demoTraits` pattern yields tuples of single characters, not the
original (type, value) pairs, so restored counters are keyed wrongly
and every lookup of a real pattern starts back at 0. -/
theorem resume_pattern_roundtrip_bug :
    serializePatternKey demoPattern
      = "Background:Red||Body:Ape||Eyewear:Gold||Head:Hat"
    ∧ deserializePatternKey (serializePatternKey demoPattern)
        ≠ patternKeyRepr demoPattern := by
  decide

/-! ## Pending work set (`NFTGenerator.generate_collection`) -/

/-- `constants.OUTPUT_DIR`. -/
def OUTPUT_DIR : String := "output"

/-- `constants.IMAGE_DIR`. -/
def IMAGE_DIR : String := "image"

/-- `constants.METADATA_DIR`. -/
def METADATA_DIR : String := "metadata"

/-- The image path tested by the pending-set computation in
`generate_collection`:
`os.path.join(self.output_dir, f"{i}.{img_format}")`. -/
def pendingCheckImagePath (i : ℕ) (imgFormat : String) : String :=
  OUTPUT_DIR ++ "/" ++ toString i ++ "." ++ imgFormat

/-- The image path `save_nft` actually writes:
`f"{self.image_dir}/{nft_id}.{ext}"` with
`self.image_dir = os.path.join(OUTPUT_DIR, IMAGE_DIR)`. -/
def savedImagePath (i : ℕ) (ext : String) : String :=
  OUTPUT_DIR ++ "/" ++ IMAGE_DIR ++ "/" ++ toString i ++ "." ++ ext

/-- `os.path.join(self.metadata_dir, f"{i}.json")` with
`self.metadata_dir = os.path.join(OUTPUT_DIR, METADATA_DIR)`. -/
def metadataPath (i : ℕ) : String :=
  OUTPUT_DIR ++ "/" ++ METADATA_DIR ++ "/" ++ toString i ++ ".json"

/-- The pending work set of `generate_collection`: IDs in [1..N] for
which the checked image path and the metadata path do not both exist,
for a given file-system membership predicate. -/
def pendingIds (n : ℕ) (imgFormat : String) (fileExists : String → Bool) :
    List ℕ :=
  ((List.range n).map (· + 1)).filter
    (fun i => !(fileExists (pendingCheckImagePath i imgFormat)
                && fileExists (metadataPath i)))

/-- A file system holding exactly the two files the spec documents for
item 1: `output/image/1.png` and `output/metadata/1.json`. -/
def demoResumeFileSys : String → Bool :=
  fun s => s == savedImagePath 1 "png" || s == metadataPath 1

/-- C5 evidence: the pending-set computation checks
`output/1.png` instead of `output/image/1.png` (where `save_nft`
writes), so an item whose documented output files both exist is still
treated as pending. -/
theorem pending_checks_wrong_image_path :
    pendingCheckImagePath 1 "png" ≠ savedImagePath 1 "png"
    ∧ demoResumeFileSys (savedImagePath 1 "png") = true
    ∧ demoResumeFileSys (metadataPath 1) = true
    ∧ pendingIds 1 "png" demoResumeFileSys = [1] := by
  decide

/-! ## Memory-aware LRU image cache (`src/modules/image_processor.py`)

Cache entries are `(path, size_bytes, access_time)` in `OrderedDict`
order.  Decoded images themselves are irrelevant to the cache
invariants and are omitted; access times are abstract naturals supplied
by the caller (the value of `time.time()` at each call). -/

/-- State of an `ImageProcessor`'s cache. -/
structure CacheState where
  entries : List (String × ℕ × ℕ)
  currentMemoryBytes : ℕ
  cacheSize : ℕ
  maxMemoryBytes : ℕ

/-- `ImageProcessor.__init__` (with `max_memory_bytes` already in
bytes). -/
def initCache (cacheSize maxMemoryBytes : ℕ) : CacheState :=
  { entries := [], currentMemoryBytes := 0
    cacheSize := cacheSize, maxMemoryBytes := maxMemoryBytes }

/-- `min(keys, key=lambda k: cache[k]['access_time'])`: the first entry
attaining the minimal access time (Python `min` keeps the earliest of
ties). -/
def findLRU (l : List (String × ℕ × ℕ)) : Option (String × ℕ × ℕ) :=
  match l with
  | [] => none
  | e :: rest =>
    some (rest.foldl (fun best x => if x.2.2 < best.2.2 then x else best) e)

/-- `ImageProcessor._evict_lru_item`: no-op on an empty cache, else
delete the least-recently-accessed entry and release its bytes. -/
def evictLRUItem (st : CacheState) : CacheState :=
  match findLRU st.entries with
  | none => st
  | some e =>
    { st with entries := st.entries.eraseP (fun p => p.1 == e.1)
              currentMemoryBytes := st.currentMemoryBytes - e.2.1 }

/-- The `while len(cache) >= cache_size` loop of `_ensure_cache_space`,
run with fuel ≥ the entry count (each iteration on a non-empty cache
removes one entry, so such fuel reaches the loop's exit condition; the
extra non-empty guard only excludes the `cache_size = 0` configuration,
on which the Python loop never terminates). -/
def evictCountLoop : ℕ → CacheState → CacheState
  | 0, st => st
  | fuel + 1, st =>
    if st.cacheSize ≤ st.entries.length ∧ st.entries ≠ [] then
      evictCountLoop fuel (evictLRUItem st)
    else st

/-- The `while current_memory_bytes + required > max_memory_bytes and
cache` loop of `_ensure_cache_space`, with fuel as above. -/
def evictMemLoop (required : ℕ) : ℕ → CacheState → CacheState
  | 0, st => st
  | fuel + 1, st =>
    if st.maxMemoryBytes < st.currentMemoryBytes + required ∧ st.entries ≠ [] then
      evictMemLoop required fuel (evictLRUItem st)
    else st

/-- `ImageProcessor._ensure_cache_space`. -/
def ensureCacheSpace (st : CacheState) (required : ℕ) : CacheState :=
  let st1 := evictCountLoop st.entries.length st
  evictMemLoop required st1.entries.length st1

/-- `ImageProcessor.load_image_cached` for an image of the given decoded
byte size: on a hit refresh the access time and move the entry to the
end; on a miss make space, then insert and account the bytes. -/
def loadImageCached (st : CacheState) (path : String) (size time : ℕ) :
    CacheState :=
  match st.entries.find? (fun p => p.1 == path) with
  | some e =>
    { st with entries :=
        st.entries.eraseP (fun p => p.1 == path) ++ [(path, e.2.1, time)] }
  | none =>
    let st' := ensureCacheSpace st size
    { st' with entries := st'.entries ++ [(path, size, time)]
               currentMemoryBytes := st'.currentMemoryBytes + size }

/-- A whole sequence of `load_image_cached` calls, each op a
`(path, size, access_time)` triple. -/
def runCache (st : CacheState) (ops : List (String × ℕ × ℕ)) : CacheState :=
  ops.foldl (fun s op => loadImageCached s op.1 op.2.1 op.2.2) st

/-- Total decoded bytes of the cached entries. -/
def sumSizes (l : List (String × ℕ × ℕ)) : ℕ :=
  (l.map (fun e => e.2.1)).sum

/-- Bookkeeping soundness: `current_memory_bytes` equals the sum of the
cached sizes, and paths (dict keys) are unique. -/
def CacheWF (st : CacheState) : Prop :=
  st.currentMemoryBytes = sumSizes st.entries
  ∧ (st.entries.map (fun e => e.1)).Nodup

/-- The budgets respected. -/
def GoodCache (st : CacheState) : Prop :=
  CacheWF st
  ∧ st.currentMemoryBytes ≤ st.maxMemoryBytes
  ∧ st.entries.length ≤ st.cacheSize

/-- Counterexample to C6 as stated: decoding a single 101-byte image
into a fresh cache with a 100-byte budget leaves
`current_memory_bytes = 101 > 100 = max_memory_bytes` — the eviction
loop stops at an empty cache and the oversized image is inserted
anyway. -/
theorem cache_overshoot_counterexample :
    (loadImageCached (initCache 128 100) "a" 101 0).currentMemoryBytes = 101
    ∧ (loadImageCached (initCache 128 100) "a" 101 0).maxMemoryBytes = 100
    ∧ ¬((loadImageCached (initCache 128 100) "a" 101 0).currentMemoryBytes
        ≤ (loadImageCached (initCache 128 100) "a" 101 0).maxMemoryBytes) := by
  decide

/-- Erasing the entry `find?` locates removes exactly its bytes and one
slot. -/
theorem eraseP_stats (p : (String × ℕ × ℕ) → Bool) :
    ∀ (l : List (String × ℕ × ℕ)) (e : String × ℕ × ℕ),
      l.find? p = some e →
      sumSizes (l.eraseP p) + e.2.1 = sumSizes l
      ∧ (l.eraseP p).length + 1 = l.length := by
  intro l
  induction l with
  | nil => intro e h; cases h
  | cons x l ih =>
    intro e h
    rw [List.find?_cons] at h
    cases hx : p x with
    | true =>
      rw [hx] at h
      have hex : e = x := (Option.some.inj h).symm
      rw [List.eraseP_cons_of_pos hx, hex]
      constructor
      · simp [sumSizes, Nat.add_comm]
      · simp
    | false =>
      rw [hx] at h
      rw [List.eraseP_cons_of_neg (by simp [hx])]
      obtain ⟨h1, h2⟩ := ih e h
      constructor
      · simp only [sumSizes, List.map_cons, List.sum_cons] at *
        omega
      · simp only [List.length_cons]
        omega

/-- After erasing the first entry with a key, no entry with that key
remains, provided keys were unique. -/
theorem eraseP_key_gone (k : String) :
    ∀ (l : List (String × ℕ × ℕ)),
      (l.map (fun x => x.1)).Nodup →
      ∀ x ∈ l.eraseP (fun p => p.1 == k), x.1 ≠ k := by
  intro l
  induction l with
  | nil => intro _ x hx; cases hx
  | cons y l ih =>
    intro hnd x hx
    by_cases hy : y.1 = k
    · rw [List.eraseP_cons_of_pos (by simp [hy])] at hx
      intro hxk
      have hyk : y.1 ∈ l.map (fun x => x.1) := by
        rw [hy, ← hxk]
        exact List.mem_map.mpr ⟨x, hx, rfl⟩
      exact (List.nodup_cons.mp (by simpa using hnd)).1 hyk
    · rw [List.eraseP_cons_of_neg (by simp [hy])] at hx
      rcases List.mem_cons.mp hx with rfl | hx'
      · exact hy
      · exact ih (List.nodup_cons.mp (by simpa using hnd)).2 x hx'

/-- With unique keys, searching for a member's key finds that member. -/
theorem find?_key_self {l : List (String × ℕ × ℕ)} {e : String × ℕ × ℕ}
    (hnd : (l.map (fun x => x.1)).Nodup) (he : e ∈ l) :
    l.find? (fun p => p.1 == e.1) = some e := by
  have hsome : (l.find? (fun p => p.1 == e.1)).isSome = true :=
    List.find?_isSome.mpr ⟨e, he, by simp⟩
  obtain ⟨x, hx⟩ := Option.isSome_iff_exists.mp hsome
  have hmem := List.mem_of_find?_eq_some hx
  have hbeq : (x.1 == e.1) = true := by simpa using List.find?_some hx
  rw [hx, List.inj_on_of_nodup_map hnd hmem he (eq_of_beq hbeq)]

/-- The entry `findLRU` returns is cached and has the minimal access
time. -/
theorem findLRU_mem_min :
    ∀ (l : List (String × ℕ × ℕ)) (e : String × ℕ × ℕ),
      findLRU l = some e → e ∈ l ∧ ∀ x ∈ l, e.2.2 ≤ x.2.2 := by
  have haux : ∀ (l : List (String × ℕ × ℕ)) (e0 : String × ℕ × ℕ),
      (l.foldl (fun best x => if x.2.2 < best.2.2 then x else best) e0 = e0
        ∨ l.foldl (fun best x => if x.2.2 < best.2.2 then x else best) e0 ∈ l)
      ∧ (l.foldl (fun best x => if x.2.2 < best.2.2 then x else best) e0).2.2
          ≤ e0.2.2
      ∧ ∀ x ∈ l,
          (l.foldl (fun best x => if x.2.2 < best.2.2 then x else best) e0).2.2
            ≤ x.2.2 := by
    intro l
    induction l with
    | nil => intro e0; exact ⟨Or.inl rfl, le_refl _, fun x hx => absurd hx (by simp)⟩
    | cons y l ih =>
      intro e0
      rw [List.foldl_cons]
      obtain ⟨hmem, hle, hall⟩ := ih (if y.2.2 < e0.2.2 then y else e0)
      have hpick_le_e0 : (if y.2.2 < e0.2.2 then y else e0).2.2 ≤ e0.2.2 := by
        split <;> omega
      have hpick_le_y : (if y.2.2 < e0.2.2 then y else e0).2.2 ≤ y.2.2 := by
        split <;> omega
      refine ⟨?_, le_trans hle hpick_le_e0, ?_⟩
      · rcases hmem with h | h
        · rw [h]
          split
          · exact Or.inr (List.mem_cons_self _ _)
          · exact Or.inl rfl
        · exact Or.inr (List.mem_cons_of_mem y h)
      · intro x hx
        rcases List.mem_cons.mp hx with rfl | hx'
        · exact le_trans hle hpick_le_y
        · exact hall x hx'
  intro l e h
  cases l with
  | nil => cases h
  | cons y l =>
    unfold findLRU at h
    have he := Option.some.inj h
    obtain ⟨hmem, hle, hall⟩ := haux l y
    constructor
    · rcases hmem with h' | h'
      · rw [← he, h']; exact List.mem_cons_self _ _
      · rw [← he]; exact List.mem_cons_of_mem y h'
    · intro x hx
      rcases List.mem_cons.mp hx with rfl | hx'
      · rw [← he]; exact hle
      · rw [← he]; exact hall x hx'

/-- One eviction on a sound non-empty cache stays sound, frees one slot,
never grows the byte count, and keeps the budgets and key set. -/
theorem evictLRUItem_spec (st : CacheState) (hwf : CacheWF st)
    (hne : st.entries ≠ []) :
    CacheWF (evictLRUItem st)
    ∧ (evictLRUItem st).entries.length + 1 = st.entries.length
    ∧ (evictLRUItem st).currentMemoryBytes ≤ st.currentMemoryBytes
    ∧ (evictLRUItem st).cacheSize = st.cacheSize
    ∧ (evictLRUItem st).maxMemoryBytes = st.maxMemoryBytes
    ∧ ((evictLRUItem st).entries.map (fun x => x.1)).Sublist
        (st.entries.map (fun x => x.1)) := by
  cases hfind : findLRU st.entries with
  | none =>
    cases hent : st.entries with
    | nil => exact absurd hent hne
    | cons y l => rw [hent] at hfind; simp [findLRU] at hfind
  | some e =>
    obtain ⟨hmem, _⟩ := findLRU_mem_min st.entries e hfind
    have hf2 : st.entries.find? (fun p => p.1 == e.1) = some e :=
      find?_key_self hwf.2 hmem
    obtain ⟨hsum, hlen⟩ := eraseP_stats _ st.entries e hf2
    have hkeys : ((st.entries.eraseP (fun p => p.1 == e.1)).map
        (fun x => x.1)).Sublist (st.entries.map (fun x => x.1)) :=
      List.Sublist.map _ (List.eraseP_sublist _)
    unfold evictLRUItem
    rw [hfind]
    refine ⟨⟨?_, List.Nodup.sublist hkeys hwf.2⟩, hlen, ?_, rfl, rfl, hkeys⟩
    · show st.currentMemoryBytes - e.2.1
        = sumSizes (st.entries.eraseP (fun p => p.1 == e.1))
      have := hwf.1
      omega
    · exact Nat.sub_le _ _

/-- The count-eviction loop with sufficient fuel: soundness and frames
are preserved, nothing grows, and on exit the count is below the budget
or the cache is empty. -/
theorem evictCountLoop_spec :
    ∀ (fuel : ℕ) (st : CacheState), CacheWF st → st.entries.length ≤ fuel →
      CacheWF (evictCountLoop fuel st)
      ∧ (evictCountLoop fuel st).cacheSize = st.cacheSize
      ∧ (evictCountLoop fuel st).maxMemoryBytes = st.maxMemoryBytes
      ∧ (evictCountLoop fuel st).entries.length ≤ st.entries.length
      ∧ (evictCountLoop fuel st).currentMemoryBytes ≤ st.currentMemoryBytes
      ∧ ((evictCountLoop fuel st).entries.map (fun x => x.1)).Sublist
          (st.entries.map (fun x => x.1))
      ∧ ((evictCountLoop fuel st).entries.length < st.cacheSize
         ∨ (evictCountLoop fuel st).entries = []) := by
  intro fuel
  induction fuel with
  | zero =>
    intro st hwf hlen
    have hnil : st.entries = [] := List.length_eq_zero.mp (Nat.le_zero.mp hlen)
    exact ⟨hwf, rfl, rfl, le_refl _, le_refl _, List.Sublist.refl _, Or.inr hnil⟩
  | succ fuel ih =>
    intro st hwf hlen
    unfold evictCountLoop
    by_cases hc : st.cacheSize ≤ st.entries.length ∧ st.entries ≠ []
    · rw [if_pos hc]
      obtain ⟨hwf', hlen', hcur', hcs', hmm', hsub'⟩ :=
        evictLRUItem_spec st hwf hc.2
      have hfuel : (evictLRUItem st).entries.length ≤ fuel := by omega
      obtain ⟨w1, w2, w3, w4, w5, w6, w7⟩ := ih (evictLRUItem st) hwf' hfuel
      refine ⟨w1, w2.trans hcs', w3.trans hmm', by omega,
        le_trans w5 hcur', w6.trans hsub', ?_⟩
      rw [hcs'] at w7
      exact w7
    · rw [if_neg hc]
      refine ⟨hwf, rfl, rfl, le_refl _, le_refl _, List.Sublist.refl _, ?_⟩
      by_cases hb : st.entries = []
      · exact Or.inr hb
      · left
        by_contra hlt
        exact hc ⟨by omega, hb⟩

/-- The memory-eviction loop with sufficient fuel: soundness and frames
are preserved, nothing grows, and on exit the bytes fit the budget or
the cache is empty. -/
theorem evictMemLoop_spec (required : ℕ) :
    ∀ (fuel : ℕ) (st : CacheState), CacheWF st → st.entries.length ≤ fuel →
      CacheWF (evictMemLoop required fuel st)
      ∧ (evictMemLoop required fuel st).cacheSize = st.cacheSize
      ∧ (evictMemLoop required fuel st).maxMemoryBytes = st.maxMemoryBytes
      ∧ (evictMemLoop required fuel st).entries.length ≤ st.entries.length
      ∧ (evictMemLoop required fuel st).currentMemoryBytes
          ≤ st.currentMemoryBytes
      ∧ ((evictMemLoop required fuel st).entries.map (fun x => x.1)).Sublist
          (st.entries.map (fun x => x.1))
      ∧ ((evictMemLoop required fuel st).currentMemoryBytes + required
          ≤ st.maxMemoryBytes
         ∨ (evictMemLoop required fuel st).entries = []) := by
  intro fuel
  induction fuel with
  | zero =>
    intro st hwf hlen
    have hnil : st.entries = [] := List.length_eq_zero.mp (Nat.le_zero.mp hlen)
    exact ⟨hwf, rfl, rfl, le_refl _, le_refl _, List.Sublist.refl _, Or.inr hnil⟩
  | succ fuel ih =>
    intro st hwf hlen
    unfold evictMemLoop
    by_cases hc : st.maxMemoryBytes < st.currentMemoryBytes + required
        ∧ st.entries ≠ []
    · rw [if_pos hc]
      obtain ⟨hwf', hlen', hcur', hcs', hmm', hsub'⟩ :=
        evictLRUItem_spec st hwf hc.2
      have hfuel : (evictLRUItem st).entries.length ≤ fuel := by omega
      obtain ⟨w1, w2, w3, w4, w5, w6, w7⟩ := ih (evictLRUItem st) hwf' hfuel
      refine ⟨w1, w2.trans hcs', w3.trans hmm', by omega,
        le_trans w5 hcur', w6.trans hsub', ?_⟩
      rw [hmm'] at w7
      exact w7
    · rw [if_neg hc]
      refine ⟨hwf, rfl, rfl, le_refl _, le_refl _, List.Sublist.refl _, ?_⟩
      by_cases hb : st.entries = []
      · exact Or.inr hb
      · left
        by_contra hlt
        exact hc ⟨by omega, hb⟩

/-- `_ensure_cache_space` on a sound cache: sound result, frames kept,
keys shrink, the requested bytes fit (or the cache emptied), and with a
positive count budget the count has room for one insertion. -/
theorem ensureCacheSpace_spec (st : CacheState) (required : ℕ)
    (hwf : CacheWF st) :
    CacheWF (ensureCacheSpace st required)
    ∧ (ensureCacheSpace st required).cacheSize = st.cacheSize
    ∧ (ensureCacheSpace st required).maxMemoryBytes = st.maxMemoryBytes
    ∧ ((ensureCacheSpace st required).entries.map (fun x => x.1)).Sublist
        (st.entries.map (fun x => x.1))
    ∧ ((ensureCacheSpace st required).currentMemoryBytes + required
        ≤ st.maxMemoryBytes
       ∨ (ensureCacheSpace st required).entries = [])
    ∧ (1 ≤ st.cacheSize →
        (ensureCacheSpace st required).entries.length < st.cacheSize) := by
  obtain ⟨c1, c2, c3, c4, c5, c6, c7⟩ :=
    evictCountLoop_spec st.entries.length st hwf (le_refl _)
  obtain ⟨m1, m2, m3, m4, m5, m6, m7⟩ :=
    evictMemLoop_spec required
      (evictCountLoop st.entries.length st).entries.length
      (evictCountLoop st.entries.length st) c1 (le_refl _)
  have hgoal : ensureCacheSpace st required
      = evictMemLoop required
          (evictCountLoop st.entries.length st).entries.length
          (evictCountLoop st.entries.length st) := rfl
  rw [hgoal]
  refine ⟨m1, m2.trans c2, m3.trans c3, m6.trans c6, ?_, ?_⟩
  · rcases m7 with h | h
    · left
      rw [c3] at h
      exact h
    · exact Or.inr h
  · intro hcs
    rcases c7 with h | h
    · exact lt_of_le_of_lt m4 h
    · rw [h] at m4
      simp at m4
      rw [h]
      simp only [List.length_nil]
      rw [m4]
      simpa using hcs

/-- One `load_image_cached` call preserves the budgets whenever the
single image fits the memory budget and the count budget is positive. -/
theorem loadImageCached_preserves (st : CacheState) (path : String)
    (size time : ℕ) (hcs : 1 ≤ st.cacheSize) (hsize : size ≤ st.maxMemoryBytes)
    (hg : GoodCache st) :
    GoodCache (loadImageCached st path size time)
    ∧ (loadImageCached st path size time).cacheSize = st.cacheSize
    ∧ (loadImageCached st path size time).maxMemoryBytes
        = st.maxMemoryBytes := by
  obtain ⟨⟨hsum, hnd⟩, hbud, hcount⟩ := hg
  unfold loadImageCached
  cases hfind : st.entries.find? (fun p => p.1 == path) with
  | some e =>
    obtain ⟨hsum', hlen'⟩ := eraseP_stats _ st.entries e hfind
    have hkeysub : ((st.entries.eraseP (fun p => p.1 == path)).map
        (fun x => x.1)).Sublist (st.entries.map (fun x => x.1)) :=
      List.Sublist.map _ (List.eraseP_sublist _)
    have hgone := eraseP_key_gone path st.entries hnd
    refine ⟨⟨⟨?_, ?_⟩, hbud, ?_⟩, rfl, rfl⟩
    · show st.currentMemoryBytes
        = sumSizes (st.entries.eraseP (fun p => p.1 == path)
            ++ [(path, e.2.1, time)])
      have happ : sumSizes (st.entries.eraseP (fun p => p.1 == path)
          ++ [(path, e.2.1, time)])
          = sumSizes (st.entries.eraseP (fun p => p.1 == path)) + e.2.1 := by
        simp [sumSizes]
      omega
    · show ((st.entries.eraseP (fun p => p.1 == path)
          ++ [(path, e.2.1, time)]).map (fun x => x.1)).Nodup
      rw [List.map_append]
      rw [List.nodup_append]
      refine ⟨List.Nodup.sublist hkeysub hnd, by simp, ?_⟩
      intro k hk hk'
      simp only [List.map_cons, List.map_nil, List.mem_singleton] at hk'
      obtain ⟨x, hx, hxk⟩ := List.mem_map.mp hk
      exact hgone x hx (hxk.trans hk')
    · show (st.entries.eraseP (fun p => p.1 == path)
          ++ [(path, e.2.1, time)]).length ≤ st.cacheSize
      rw [List.length_append]
      simp only [List.length_cons, List.length_nil]
      omega
  | none =>
    have hnomem : ∀ x ∈ st.entries, x.1 ≠ path := by
      intro x hx
      have := List.find?_eq_none.mp hfind x hx
      simpa using this
    obtain ⟨e1, e2, e3, e4, e5, e6⟩ := ensureCacheSpace_spec st size ⟨hsum, hnd⟩
    refine ⟨⟨⟨?_, ?_⟩, ?_, ?_⟩, e2, e3⟩
    · show (ensureCacheSpace st size).currentMemoryBytes + size
        = sumSizes ((ensureCacheSpace st size).entries ++ [(path, size, time)])
      have happ : sumSizes ((ensureCacheSpace st size).entries
          ++ [(path, size, time)])
          = sumSizes (ensureCacheSpace st size).entries + size := by
        simp [sumSizes]
      have := e1.1
      omega
    · show (((ensureCacheSpace st size).entries
          ++ [(path, size, time)]).map (fun x => x.1)).Nodup
      rw [List.map_append, List.nodup_append]
      refine ⟨List.Nodup.sublist e4 hnd, by simp, ?_⟩
      intro k hk hk'
      simp only [List.map_cons, List.map_nil, List.mem_singleton] at hk'
      obtain ⟨x, hx, hxk⟩ := List.mem_map.mp hk
      have hxmem : x.1 ∈ st.entries.map (fun y => y.1) :=
        e4.subset (List.mem_map.mpr ⟨x, hx, rfl⟩)
      obtain ⟨y, hy, hyx⟩ := List.mem_map.mp hxmem
      exact hnomem y hy (hyx.trans (hxk.trans hk'))
    · show (ensureCacheSpace st size).currentMemoryBytes + size
        ≤ (ensureCacheSpace st size).maxMemoryBytes
      rw [e3]
      rcases e5 with h | h
      · exact h
      · have : (ensureCacheSpace st size).currentMemoryBytes = 0 := by
          have := e1.1
          rw [h] at this
          simpa [sumSizes] using this
        omega
    · show ((ensureCacheSpace st size).entries
          ++ [(path, size, time)]).length ≤ (ensureCacheSpace st size).cacheSize
      rw [List.length_append, e2]
      simp only [List.length_cons, List.length_nil]
      have := e6 hcs
      omega

/-- C6 (amended): over any sequence of `load_image_cached` calls in
which every single decoded image fits the memory budget, and with a
positive entry budget, `current_memory_bytes` never exceeds
`max_memory_bytes` and the entry count never exceeds `cache_size`; and
whenever an entry is evicted it is one cached at that moment with the
oldest access timestamp.  (As stated the claim is false: a single image
larger than the whole budget is still inserted after the eviction loop
empties the cache — see the counterexample.) -/
theorem cache_bounds_and_lru :
    (∀ (cs mm : ℕ) (ops : List (String × ℕ × ℕ)),
      1 ≤ cs → (∀ op ∈ ops, op.2.1 ≤ mm) →
      (runCache (initCache cs mm) ops).currentMemoryBytes ≤ mm
      ∧ (runCache (initCache cs mm) ops).entries.length ≤ cs)
    ∧ (∀ (st : CacheState) (e : String × ℕ × ℕ),
        findLRU st.entries = some e →
        e ∈ st.entries
        ∧ (∀ x ∈ st.entries, e.2.2 ≤ x.2.2)
        ∧ (evictLRUItem st).entries
            = st.entries.eraseP (fun p => p.1 == e.1)) := by
  constructor
  · have haux : ∀ (cs mm : ℕ) (ops : List (String × ℕ × ℕ)) (st : CacheState),
        st.cacheSize = cs → st.maxMemoryBytes = mm → 1 ≤ cs →
        (∀ op ∈ ops, op.2.1 ≤ mm) → GoodCache st →
        GoodCache (runCache st ops)
        ∧ (runCache st ops).cacheSize = cs
        ∧ (runCache st ops).maxMemoryBytes = mm := by
      intro cs mm ops
      induction ops with
      | nil => intro st h1 h2 _ _ hg; exact ⟨hg, h1, h2⟩
      | cons op rest ih =>
        intro st h1 h2 hcs hsz hg
        obtain ⟨hg', hc', hm'⟩ :=
          loadImageCached_preserves st op.1 op.2.1 op.2.2 (h1 ▸ hcs)
            (h2 ▸ hsz op (List.mem_cons_self _ _)) hg
        have hrun : runCache st (op :: rest)
            = runCache (loadImageCached st op.1 op.2.1 op.2.2) rest := rfl
        rw [hrun]
        exact ih (loadImageCached st op.1 op.2.1 op.2.2) (hc'.trans h1)
          (hm'.trans h2) hcs (fun o ho => hsz o (List.mem_cons_of_mem _ ho)) hg'
    intro cs mm ops hcs hsz
    obtain ⟨⟨_, hbud, hcount⟩, hc, hm⟩ :=
      haux cs mm ops (initCache cs mm) rfl rfl hcs hsz
        ⟨⟨rfl, List.nodup_nil⟩, Nat.zero_le _, Nat.zero_le _⟩
    exact ⟨le_of_le_of_eq hbud hm, le_of_le_of_eq hcount hc⟩
  · intro st e hfind
    obtain ⟨hmem, hmin⟩ := findLRU_mem_min st.entries e hfind
    refine ⟨hmem, hmin, ?_⟩
    unfold evictLRUItem
    rw [hfind]

/-- Witness for the amended C6: two images of 60 and 70 bytes through a
100-byte, 2-entry cache stay within both budgets (the first entry is
evicted), and on a concrete cache the LRU choice is the oldest entry. -/
theorem cache_bounds_and_lru_witness :
    (1 ≤ 2 ∧ ∀ op ∈ [("a", 60, 0), ("b", 70, 1)], op.2.1 ≤ (100 : ℕ))
    ∧ (runCache (initCache 2 100)
        [("a", 60, 0), ("b", 70, 1)]).currentMemoryBytes ≤ 100
    ∧ (runCache (initCache 2 100)
        [("a", 60, 0), ("b", 70, 1)]).entries.length ≤ 2
    ∧ ("a", 60, 0) ∈ (runCache (initCache 2 100) [("a", 60, 0)]).entries
    ∧ (∀ x ∈ (runCache (initCache 2 100) [("a", 60, 0)]).entries,
        (("a", 60, 0) : String × ℕ × ℕ).2.2 ≤ x.2.2) :=
  ⟨⟨by decide, by decide⟩,
   (cache_bounds_and_lru.1 2 100 [("a", 60, 0), ("b", 70, 1)]
     (by decide) (by decide)).1,
   (cache_bounds_and_lru.1 2 100 [("a", 60, 0), ("b", 70, 1)]
     (by decide) (by decide)).2,
   (cache_bounds_and_lru.2 (runCache (initCache 2 100) [("a", 60, 0)])
     ("a", 60, 0) (by decide)).1,
   (cache_bounds_and_lru.2 (runCache (initCache 2 100) [("a", 60, 0)])
     ("a", 60, 0) (by decide)).2.1⟩

end Genecator
